import Mathlib

/-!
# Verification of the Rumy advisory engine

Shallow embedding of the heuristic Rummy advisory engine
(`src/bot/game_logic.py`, `src/bot/utils.py`, `src/bot/constants.py`)
and proofs about its specification.

Conventions of the embedding:
* A card is modelled as the `String` token used by the source
  (rank token concatenated with a one-character suit token, e.g. `"10H"`).
* Python floats are modelled as `ℚ`; `float('inf')` is modelled as `⊤`
  in `WithTop ℚ`.  Every numeric comparison appearing in the claims is
  exact at these magnitudes, so the rational model is faithful.
* Python's `sorted`/`list.sort` (a stable sort) is modelled by
  `List.insertionSort`, which is stable for the reflexive total
  preorders used here.
* `collections.defaultdict` grouping/counting is modelled by
  association lists whose keys appear in first-insertion order, the
  iteration order of a Python dict.
* A Python function that can raise an exception on the relevant inputs
  is modelled with an `Option` result, `none` standing for the raised
  exception.
* `game_logic.py` refers to the rank table `RANKS` without importing it;
  the table is the one defined in `constants.py` and we embed that
  intended binding.  `RANKS.index` on a token outside the table raises
  `ValueError`; the engine's callers are contracted (§6 of the design)
  to pass validated tokens, and except where a claim is specifically
  about raising, we model the index totally via `List.indexOf`
  (returning the list length on a miss).
-/

namespace Rumy

/-- `SUITS` from `constants.py`. -/
def SUITS : List String := ["H", "D", "C", "S"]

/-- `RANKS` from `constants.py` (linear order, `2` lowest, `A` highest). -/
def RANKS : List String := ["2", "3", "4", "5", "6", "7", "8", "9", "10", "J", "Q", "K", "A"]

/-- Python `card[:-1]`: the rank token of a card. -/
def rankOf (card : String) : String := card.dropRight 1

/-- Python `card[-1]` (as a one-character string): the suit token of a card. -/
def suitOf (card : String) : String := card.takeRight 1

/-- Total model of `RANKS.index(rank)` (see header note). -/
def rankIdx (card : String) : Nat := RANKS.indexOf (rankOf card)

/-- `validate_card` from `utils.py`. -/
def validate_card (card : String) : Bool :=
  if card.length < 2 then false
  else rankOf card ∈ RANKS && suitOf card ∈ SUITS

/-- `calculate_card_value` from `utils.py`.  Python returns the tuple
`(is_joker, rank_value, suit_value)`; a Python `bool` compares as the
integer `0`/`1` inside a tuple comparison, so `is_joker` is embedded as
that integer. -/
def calculate_card_value (joker : Option String) (card : String) : Int × Int × Int :=
  let rank := rankOf card
  let suit := suitOf card
  let is_joker : Int := if some card = joker then 1 else 0
  let rank_value : Int := if rank ∈ RANKS then (RANKS.indexOf rank : Int) else -1
  let suit_value : Int := if suit ∈ SUITS then (SUITS.indexOf suit : Int) else -1
  (is_joker, rank_value, suit_value)

/-- Lexicographic `≤` on the value triples, i.e. Python's tuple comparison. -/
def tupleLe (x y : Int × Int × Int) : Prop :=
  x.1 < y.1 ∨ (x.1 = y.1 ∧ (x.2.1 < y.2.1 ∨ (x.2.1 = y.2.1 ∧ x.2.2 ≤ y.2.2)))

instance : DecidableRel tupleLe := fun x y => by
  unfold tupleLe; exact inferInstance

/-- The ordering used by `sort_cards`: Python `sorted(key=…, reverse=True)`
is the stable sort by the *descending* key order. -/
def sortRel (joker : Option String) (a b : String) : Prop :=
  tupleLe (calculate_card_value joker b) (calculate_card_value joker a)

instance (joker : Option String) : DecidableRel (sortRel joker) := fun a b => by
  unfold sortRel; exact inferInstance

/-- `sort_cards` from `utils.py`: stable sort by card value, descending. -/
def sort_cards (cards : List String) (joker : Option String) : List String :=
  List.insertionSort (sortRel joker) cards

theorem tupleLe_total (x y : Int × Int × Int) : tupleLe x y ∨ tupleLe y x := by
  unfold tupleLe; omega

theorem tupleLe_trans {x y z : Int × Int × Int} (h₁ : tupleLe x y) (h₂ : tupleLe y z) :
    tupleLe x z := by
  unfold tupleLe at *; omega

theorem sortRel_total (joker : Option String) (a b : String) :
    sortRel joker a b ∨ sortRel joker b a :=
  tupleLe_total _ _

theorem sortRel_trans (joker : Option String) {a b c : String}
    (h₁ : sortRel joker a b) (h₂ : sortRel joker b c) : sortRel joker a c :=
  tupleLe_trans h₂ h₁

/-! ## Grouping (defaultdict model) -/

/-- First-occurrence deduplication: the key iteration order of a Python
dict that was filled by the given list of keys. -/
def dedupFirst (seen : List String) : List String → List String
  | [] => []
  | k :: ks => if k ∈ seen then dedupFirst seen ks else k :: dedupFirst (k :: seen) ks

/-- Model of the `defaultdict(list)` grouping loops of `game_logic.py`:
keys in first-insertion order, each group holding, in hand order, the
cards the loop appended under that key. -/
def groupBy (key : String → String) (hand : List String) : List (String × List String) :=
  (dedupFirst [] (hand.map key)).map fun k => (k, hand.filter fun c => key c = k)

/-- The ordering used for the per-suit sorts
(`sorted(suit_cards, key=lambda c: RANKS.index(c[:-1]))`). -/
def rankLe (a b : String) : Prop := rankIdx a ≤ rankIdx b

instance : DecidableRel rankLe := fun a b => by
  unfold rankLe; exact inferInstance

/-- Python's stable ascending sort by rank index. -/
def sortByRank (cards : List String) : List String :=
  List.insertionSort rankLe cards

/-! ## Sequence scanning -/

/-- The loop body of `_find_sequences_in_sorted_list`: `prev` is the card
at index `i-1`, `run` the running `current_seq`, `seqs` the accumulated
`sequences` count. -/
def findSeqAux (prev : String) (run seqs : Nat) : List String → Nat
  | [] => seqs
  | c :: rest =>
    if rankIdx c = rankIdx prev + 1 then
      findSeqAux c (run + 1) (if 3 ≤ run + 1 then seqs + 1 else seqs) rest
    else
      findSeqAux c 1 seqs rest

/-- `_find_sequences_in_sorted_list` from `game_logic.py`. -/
def find_sequences_in_sorted_list (cards : List String) : Nat :=
  if cards.length < 3 then 0
  else
    match cards with
    | [] => 0
    | c :: rest => findSeqAux c 1 0 rest

/-- `_count_pure_sequences` from `game_logic.py`. -/
def count_pure_sequences (hand : List String) : Nat :=
  ((groupBy suitOf hand).map fun g => find_sequences_in_sorted_list (sortByRank g.2)).sum

/-- `_count_potential_sequences` from `game_logic.py` (adds the flat 0.5
joker bonus per suit group with at least two cards). -/
def count_potential_sequences (hand : List String) : ℚ :=
  ((groupBy suitOf hand).map fun g =>
    (find_sequences_in_sorted_list (sortByRank g.2) : ℚ) +
      (if 2 ≤ g.2.length then (0.5 : ℚ) else 0)).sum

/-- `_count_sets` from `game_logic.py`: number of ranks with at least two
occurrences. -/
def count_sets (hand : List String) : Nat :=
  ((groupBy rankOf hand).filter fun g => 2 ≤ g.2.length).length

/-- `evaluate_hand_strength` from `game_logic.py`. -/
def evaluate_hand_strength (hand : List String) (joker : String) : ℚ :=
  if hand = [] ∨ joker = "" then 0
  else
    min ((count_pure_sequences hand : ℚ) * 0.4 +
         count_potential_sequences hand * 0.3 +
         (count_sets hand : ℚ) * 0.3) 1

/-- `suggest_initial_action` from `game_logic.py`. -/
def suggest_initial_action (hand : List String) (joker : String) : String :=
  if 0.5 ≤ evaluate_hand_strength hand joker then "Play" else "Drop"

/-! ## Maximal runs

`runs` decomposes a rank-sorted same-suit list into its maximal
consecutive-rank segments (split wherever the next rank index is not the
successor of the previous one).  It is the specification-side view of
the running-counter scan of `_find_sequences_in_sorted_list` and of the
"maximal consecutive runs" of §4.1. -/
def runs : List String → List (List String)
  | [] => []
  | c :: rest =>
    match runs rest with
    | [] => [[c]]
    | [] :: rs => [c] :: [] :: rs
    | (d :: r) :: rs =>
      if rankIdx d = rankIdx c + 1 then (c :: d :: r) :: rs else [c] :: (d :: r) :: rs

/-- Overlapping-count total of a run decomposition: each maximal run of
length `L` contributes `max (L - 2) 0` (truncated `Nat` subtraction). -/
def runSum (cards : List String) : Nat :=
  ((runs cards).map fun r => r.length - 2).sum

/-- Modelled from the spec: `_find_complete_sequences` is called by
`_identify_protected_cards` in `game_logic.py` but is defined nowhere in
the repository.  §4.1: protected-card identification "independently finds
maximal consecutive runs ≥3 within each suit (contiguous runs fully
protected)"; so on a rank-sorted same-suit list it returns the maximal
consecutive runs of length at least 3. -/
def find_complete_sequences (sortedCards : List String) : List (List String) :=
  (runs sortedCards).filter fun r => 3 ≤ r.length

/-- `_identify_protected_cards` from `game_logic.py` (its sequence part
goes through the spec-modelled `find_complete_sequences`; its set part —
ranks with at least three occurrences — is in the source).  The Python
function returns `list(protected)` for a `set` whose iteration order is
unspecified; only membership in the result is ever consumed, and only
membership is used in the proofs below. -/
def identify_protected_cards (hand : List String) (_joker : String) : List String :=
  (((groupBy suitOf hand).map fun g =>
      (find_complete_sequences (sortByRank g.2)).flatten).flatten) ++
    ((((groupBy rankOf hand).filter fun g => 3 ≤ g.2.length).map fun g => g.2).flatten)

/-- Modelled from the spec: `_sequence_contribution` is called by
`_calculate_card_usefulness` in `game_logic.py` but is defined nowhere in
the repository.  §4.4: "sequenceContribution … 1.0 if the card currently
participates in a 2-card partial run", i.e. some other hand card of the
same suit has a rank adjacent to the card's rank. -/
def sequence_contribution (hand : List String) (card : String) : ℚ :=
  if hand.any fun c =>
      c ≠ card && suitOf c == suitOf card &&
        (rankIdx c == rankIdx card + 1 || rankIdx card == rankIdx c + 1) then 1 else 0

/-- Modelled from the spec: `_set_contribution` is called by
`_calculate_card_usefulness` in `game_logic.py` but is defined nowhere in
the repository.  §4.4: "setContribution … 1.0 if the card currently
participates in a … pair", i.e. some other hand card shares its rank. -/
def set_contribution (hand : List String) (card : String) : ℚ :=
  if hand.any fun c => c ≠ card && rankOf c == rankOf card then 1 else 0

/-- `_calculate_card_usefulness` from `game_logic.py` (via the two
spec-modelled contributions above). -/
def calculate_card_usefulness (hand : List String) (card : String) (joker : String) : ℚ :=
  max (sequence_contribution hand card)
    (max (set_contribution hand card) (if card = joker then 1 else 0))

/-- `_calculate_discard_danger` from `game_logic.py`.  The
`opponent_discards` argument is accepted and ignored, exactly as in the
source. -/
def calculate_discard_danger (card : String) (opponent_picks : List String)
    (_opponent_discards : List String) : ℚ :=
  let rank := rankOf card
  let suit := suitOf card
  let rank_danger : ℚ :=
    (opponent_picks.countP fun c => rankOf c == rank) / ((opponent_picks.length : ℚ) + 1)
  let suit_danger : ℚ :=
    (opponent_picks.countP fun c => suitOf c == suit) / ((opponent_picks.length : ℚ) + 1)
  max rank_danger suit_danger

/-- The comparison used to sort `card_scores` (Python `list.sort` keyed on
the score component: a stable ascending sort). -/
def scoreLe (a b : String × WithTop ℚ) : Prop := a.2 ≤ b.2

instance : DecidableRel scoreLe := fun a b => by
  unfold scoreLe; exact inferInstance

/-- `suggest_discard` from `game_logic.py`.  Protected cards score
`float('inf')`, modelled by `⊤`; `card_scores[0][0]` raises `IndexError`
on an empty hand, modelled by the `none` result of `head?`. -/
def suggest_discard (hand : List String) (joker : String) (_picked_card : Option String)
    (_discard_pile opponent_picks opponent_discards : List String) : Option String :=
  let prot := identify_protected_cards hand joker
  let card_scores : List (String × WithTop ℚ) := hand.map fun card =>
    if card ∈ prot then (card, (⊤ : WithTop ℚ))
    else
      (card, ((calculate_card_usefulness hand card joker -
               calculate_discard_danger card opponent_picks opponent_discards : ℚ) : WithTop ℚ))
  ((card_scores.insertionSort scoreLe).head?).map Prod.fst

/-! ## Opponent model and the stateful advisors -/

/-- The `RummyAI` instance state: the two trap counters and the
`opponent_behavior` dictionary (two frequency counters plus the two
preference flags), flattened into one structure.  The `defaultdict(int)`
counters are association lists in key-insertion order. -/
structure RummyAI where
  trap_history : List (String × Nat)
  trap_success : List (String × Nat)
  open_picks : List (String × Nat)
  discards : List (String × Nat)
  sequences_preferred : Bool
  sets_preferred : Bool
deriving DecidableEq

/-- The `RummyAI.__init__` state: empty counters, both flags `False`. -/
def initAI : RummyAI := ⟨[], [], [], [], false, false⟩

/-- `counter[card] += 1` on a `defaultdict(int)`: bump an existing key in
place, or append a fresh key with count 1. -/
def bump (m : List (String × Nat)) (card : String) : List (String × Nat) :=
  if m.any fun p => p.1 = card then
    m.map fun p => if p.1 = card then (p.1, p.2 + 1) else p
  else m ++ [(card, 1)]

/-- `_is_card_likely_useful_to_opponent` from `game_logic.py`.  Note that
the Python comprehensions iterate over the `open_picks` *dict*, i.e. over
its keys, so each distinct picked card is counted once regardless of its
stored count. -/
def is_card_likely_useful_to_opponent (ai : RummyAI) (card : String) : Bool :=
  let rank := rankOf card
  let suit := suitOf card
  let rank_picks := ai.open_picks.countP fun p => rankOf p.1 == rank
  let suit_picks := ai.open_picks.countP fun p => suitOf p.1 == suit
  decide (1 < rank_picks) || decide (2 < suit_picks)

/-- `_is_sequence_related` from `game_logic.py`. -/
def is_sequence_related (card : String) (opponent_picks : List String) : Bool :=
  let suit := suitOf card
  let rank_idx := rankIdx card
  let lower_neighbor : Option String :=
    if 0 < rank_idx then some (RANKS.getD (rank_idx - 1) "" ++ suit) else none
  let upper_neighbor : Option String :=
    if rank_idx < RANKS.length - 1 then some (RANKS.getD (rank_idx + 1) "" ++ suit) else none
  (lower_neighbor.isSome && decide (lower_neighbor.getD "" ∈ opponent_picks)) ||
    (upper_neighbor.isSome && decide (upper_neighbor.getD "" ∈ opponent_picks))

/-- `_is_set_related` from `game_logic.py`. -/
def is_set_related (card : String) (opponent_picks : List String) : Bool :=
  decide (2 ≤ opponent_picks.countP fun c => rankOf c == rankOf card)

/-- `_update_opponent_behavior` from `game_logic.py`: increment both
frequency counters and re-derive the sticky preference flags
(`if`/`elif`, so at most one flag is turned on per update). -/
def update_opponent_behavior (ai : RummyAI) (opponent_picks opponent_discards : List String) :
    RummyAI :=
  let seq_clues := opponent_picks.countP fun card => is_sequence_related card opponent_picks
  let set_clues := opponent_picks.countP fun card => is_set_related card opponent_picks
  { ai with
    open_picks := opponent_picks.foldl bump ai.open_picks
    discards := opponent_discards.foldl bump ai.discards
    sequences_preferred :=
      if set_clues + 2 < seq_clues then true else ai.sequences_preferred
    sets_preferred :=
      if ¬ set_clues + 2 < seq_clues ∧ seq_clues + 2 < set_clues then true
      else ai.sets_preferred }

/-- Python list indexing `l[i]` with an `Int` index: non-negative indices
are positions from the front, negative indices wrap from the back, and
anything else raises `IndexError` (`none`). -/
def pyGet (l : List String) (i : Int) : Option String :=
  if 0 ≤ i then l.get? i.toNat
  else if 0 ≤ (l.length : Int) + i then l.get? ((l.length : Int) + i).toNat else none

/-- `_does_card_complete_group` from `game_logic.py`, modelled
exception-faithfully: `RANKS.index` raising `ValueError` and `RANKS[i]`
raising `IndexError` both surface as `none`; Python's negative-index
wraparound in `RANKS[rank_idx-2]` is preserved by `pyGet`.  The `joker`
parameter is accepted and ignored, exactly as in the source. -/
def does_card_complete_group (hand : List String) (card : String) (_joker : String) :
    Option Bool :=
  let suit := suitOf card
  let rank := rankOf card
  (RANKS.indexOf? rank).bind fun rank_idx =>
    let lower_neighbor : Option String :=
      if 0 < rank_idx then some (RANKS.getD (rank_idx - 1) "" ++ suit) else none
    let upper_neighbor : Option String :=
      if rank_idx < RANKS.length - 1 then some (RANKS.getD (rank_idx + 1) "" ++ suit) else none
    (if lower_neighbor.isSome then
        (pyGet RANKS ((rank_idx : Int) - 2)).map fun r2 =>
          decide (r2 ++ suit ∈ hand) && decide (lower_neighbor.getD "" ∈ hand)
      else some false).bind fun case1 =>
    if case1 then some true else
    (if upper_neighbor.isSome then
        (pyGet RANKS ((rank_idx : Int) + 2)).map fun r2 =>
          decide (r2 ++ suit ∈ hand) && decide (upper_neighbor.getD "" ∈ hand)
      else some false).bind fun case2 =>
    if case2 then some true else
    if lower_neighbor.isSome && upper_neighbor.isSome &&
        decide (lower_neighbor.getD "" ∈ hand) && decide (upper_neighbor.getD "" ∈ hand) then
      some true
    else
      some (decide (2 ≤ (hand.filter fun c => rankOf c == rank).length))

/-- `suggest_pick_source` from `game_logic.py`.  The returned pair is
(recommendation, updated `RummyAI` state); `none` models a raised
exception (possible only inside `does_card_complete_group`).  Python's
`if not open_card` treats both `None` and the empty string as absent. -/
def suggest_pick_source (ai : RummyAI) (hand : List String) (joker : String)
    (open_card : Option String) (_discard_pile opponent_picks opponent_discards : List String) :
    Option (String × RummyAI) :=
  if open_card.getD "" = "" then some ("Closed Deck", ai)
  else
    let oc := open_card.getD ""
    let ai' := update_opponent_behavior ai opponent_picks opponent_discards
    (does_card_complete_group hand oc joker).bind fun completes =>
      if completes then some ("Open Deck", ai')
      else if ¬ is_card_likely_useful_to_opponent ai' oc then some ("Open Deck", ai')
      else some ("Closed Deck", ai')

/-- `_is_false_sequence_card` from `game_logic.py` (both two-away lookups
are guarded by explicit range checks in the source, so no indexing error
is possible here). -/
def is_false_sequence_card (hand : List String) (card : String) (_joker : String) : Bool :=
  let suit := suitOf card
  let rank_idx := rankIdx card
  let lower_neighbor : Option String :=
    if 0 < rank_idx then some (RANKS.getD (rank_idx - 1) "" ++ suit) else none
  let upper_neighbor : Option String :=
    if rank_idx < RANKS.length - 1 then some (RANKS.getD (rank_idx + 1) "" ++ suit) else none
  let case1 := lower_neighbor.isSome && upper_neighbor.isSome &&
    decide (lower_neighbor.getD "" ∈ hand) && decide (upper_neighbor.getD "" ∈ hand)
  let case2 := lower_neighbor.isSome && decide (2 ≤ rank_idx) &&
    decide (lower_neighbor.getD "" ∈ hand) &&
    decide (RANKS.getD (rank_idx - 2) "" ++ suit ∈ hand)
  let case3 := upper_neighbor.isSome && decide (rank_idx < RANKS.length - 2) &&
    decide (upper_neighbor.getD "" ∈ hand) &&
    decide (RANKS.getD (rank_idx + 2) "" ++ suit ∈ hand)
  case1 || case2 || case3

/-- The `for card in hand` loop of `suggest_trap_card`. -/
def trapLoop (ai : RummyAI) (hand : List String) (joker : String) : List String → Option String × RummyAI
  | [] => (none, ai)
  | card :: rest =>
    if card = joker then trapLoop ai hand joker rest
    else if is_false_sequence_card hand card joker &&
        is_card_likely_useful_to_opponent ai card then
      (some card, { ai with trap_history := bump ai.trap_history card })
    else trapLoop ai hand joker rest

/-- `suggest_trap_card` from `game_logic.py`: the first non-joker hand
card that looks like (but is not) a sequence completer and that the
opponent model wants; bumps `trap_history` for the returned card.  Its
`opponent_picks`/`opponent_discards` parameters are accepted and never
used, exactly as in the source. -/
def suggest_trap_card (ai : RummyAI) (hand : List String) (joker : String)
    (_opponent_picks _opponent_discards : List String) : Option String × RummyAI :=
  trapLoop ai hand joker hand

/-! ## Theory: the running-counter scan counts `length - 2` per maximal run -/

theorem findSeqAux_acc : ∀ (l : List String) (prev : String) (run seqs : Nat),
    findSeqAux prev run seqs l = seqs + findSeqAux prev run 0 l
  | [], _, _, _ => by simp [findSeqAux]
  | c :: rest, prev, run, seqs => by
    simp only [findSeqAux]
    by_cases h : rankIdx c = rankIdx prev + 1
    · simp only [if_pos h]
      by_cases h3 : 3 ≤ run + 1
      · simp only [if_pos h3]
        rw [findSeqAux_acc rest c (run + 1) (seqs + 1), findSeqAux_acc rest c (run + 1) (0 + 1)]
        omega
      · simp only [if_neg h3]
        exact findSeqAux_acc rest c (run + 1) seqs
    · simp only [if_neg h]
      exact findSeqAux_acc rest c 1 seqs

theorem runs_cons : ∀ (l : List String) (c : String), ∃ t rs, runs (c :: l) = (c :: t) :: rs
  | [], _ => ⟨[], [], rfl⟩
  | d :: rest, c => by
    obtain ⟨t, rs, h⟩ := runs_cons rest d
    refine if hx : rankIdx d = rankIdx c + 1 then ⟨d :: t, rs, ?_⟩ else ⟨[], (d :: t) :: rs, ?_⟩ <;>
      · show (match runs (d :: rest) with
          | [] => [[c]]
          | [] :: rs => [c] :: [] :: rs
          | (d :: r) :: rs =>
            if rankIdx d = rankIdx c + 1 then (c :: d :: r) :: rs else [c] :: (d :: r) :: rs) = _
        rw [h]
        simp [hx]

theorem runs_length_sum : ∀ l : List String, ((runs l).map fun r => r.length).sum = l.length
  | [] => rfl
  | c :: rest => by
    have ih := runs_length_sum rest
    cases rest with
    | nil => rfl
    | cons d rest' =>
      obtain ⟨t, rs, h⟩ := runs_cons rest' d
      have hc : runs (c :: d :: rest') =
          if rankIdx d = rankIdx c + 1 then (c :: d :: t) :: rs
          else [c] :: (d :: t) :: rs := by
        show (match runs (d :: rest') with
          | [] => [[c]]
          | [] :: rs => [c] :: [] :: rs
          | (d :: r) :: rs =>
            if rankIdx d = rankIdx c + 1 then (c :: d :: r) :: rs else [c] :: (d :: r) :: rs) = _
        rw [h]
      rw [h] at ih
      rw [hc]
      by_cases hx : rankIdx d = rankIdx c + 1 <;> simp [hx] at ih ⊢ <;> omega

theorem findSeqAux_runs : ∀ (l : List String) (c : String) (run : Nat), 1 ≤ run →
    ∀ t rs, runs (c :: l) = (c :: t) :: rs →
    findSeqAux c run 0 l =
      ((run + t.length) - 2) - (run - 2) + (rs.map fun r => r.length - 2).sum
  | [], c, run, hrun, t, rs, h => by
    have h' : ([[c]] : List (List String)) = (c :: t) :: rs := h
    have ht : t = [] := by
      have := congrArg List.head? h'
      simpa using this
    have hrs : rs = [] := by
      have := congrArg List.tail h'
      simpa using this
    subst ht; subst hrs
    simp [findSeqAux]
  | d :: rest, c, run, hrun, t, rs, h => by
    obtain ⟨t', rs', h'⟩ := runs_cons rest d
    have hc : runs (c :: d :: rest) =
        if rankIdx d = rankIdx c + 1 then (c :: d :: t') :: rs'
        else [c] :: (d :: t') :: rs' := by
      show (match runs (d :: rest) with
        | [] => [[c]]
        | [] :: rs => [c] :: [] :: rs
        | (d :: r) :: rs =>
          if rankIdx d = rankIdx c + 1 then (c :: d :: r) :: rs else [c] :: (d :: r) :: rs) = _
      rw [h']
    rw [hc] at h
    by_cases hx : rankIdx d = rankIdx c + 1
    · rw [if_pos hx] at h
      have ht : t = d :: t' := by
        have := congrArg List.head? h
        simpa using this.symm
      have hrs : rs = rs' := by
        have := congrArg List.tail h
        simpa using this.symm
      subst ht; rw [hrs]
      have ihs := findSeqAux_runs rest d (run + 1) (by omega) t' rs' h'
      simp only [findSeqAux, if_pos hx]
      by_cases h3 : 3 ≤ run + 1
      · rw [if_pos h3, findSeqAux_acc rest d (run + 1) _, ihs]
        simp only [List.length_cons]
        omega
      · rw [if_neg h3, findSeqAux_acc rest d (run + 1) _, ihs]
        simp only [List.length_cons]
        omega
    · rw [if_neg hx] at h
      have ht : t = [] := by
        have := congrArg List.head? h
        simpa using this.symm
      have hrs : rs = (d :: t') :: rs' := by
        have := congrArg List.tail h
        simpa using this.symm
      subst ht; subst hrs
      have ihs := findSeqAux_runs rest d 1 le_rfl t' rs' h'
      simp only [findSeqAux, if_neg hx]
      rw [findSeqAux_acc rest d 1 _, ihs]
      simp only [List.map_cons, List.sum_cons, List.length_cons, List.length_nil]
      omega

/-- The scan of `_find_sequences_in_sorted_list` computes exactly the
overlapping-count total `Σ max (runLength - 2) 0` over maximal
consecutive-rank runs. -/
theorem find_sequences_eq_runSum (l : List String) :
    find_sequences_in_sorted_list l = runSum l := by
  cases l with
  | nil => rfl
  | cons c rest =>
    obtain ⟨t, rs, h⟩ := runs_cons rest c
    by_cases hlen : (c :: rest).length < 3
    · have hz : runSum (c :: rest) = 0 := by
        have hsum := runs_length_sum (c :: rest)
        refine List.sum_eq_zero fun x hx => ?_
        obtain ⟨r, hr, hxr⟩ := List.mem_map.mp hx
        have h1 : r.length ≤ (c :: rest).length := by
          rw [← hsum]
          exact List.single_le_sum (fun x _ => Nat.zero_le x) _
            (List.mem_map_of_mem (fun r => r.length) hr)
        omega
      rw [hz]
      simp only [find_sequences_in_sorted_list]
      rw [if_pos hlen]
    · have heq : find_sequences_in_sorted_list (c :: rest) = findSeqAux c 1 0 rest := by
        simp only [find_sequences_in_sorted_list]
        rw [if_neg hlen]
      rw [heq, findSeqAux_runs rest c 1 le_rfl t rs h]
      unfold runSum
      rw [h]
      simp only [List.map_cons, List.sum_cons, List.length_cons]
      omega

/-! ## Theory: scattered lists produce no sequences -/

theorem chain'_of_forall {R : String → String → Prop} :
    ∀ l : List String, (∀ a ∈ l, ∀ b ∈ l, R a b) → l.Chain' R
  | [], _ => trivial
  | [_], _ => by simp
  | a :: b :: l, h => by
    rw [List.chain'_cons]
    refine ⟨h a (by simp) b (by simp), chain'_of_forall (b :: l) fun x hx y hy => ?_⟩
    exact h x (List.mem_cons_of_mem a hx) y (List.mem_cons_of_mem a hy)

theorem findSeqAux_of_chain : ∀ (l : List String) (c : String) (run seqs : Nat),
    List.Chain' (fun a b => rankIdx b ≠ rankIdx a + 1) (c :: l) →
    findSeqAux c run seqs l = seqs
  | [], _, _, _, _ => rfl
  | d :: rest, c, run, seqs, h => by
    rw [List.chain'_cons] at h
    simp only [findSeqAux, if_neg h.1]
    exact findSeqAux_of_chain rest d 1 seqs h.2

theorem find_sequences_eq_zero_of_chain (l : List String)
    (h : List.Chain' (fun a b => rankIdx b ≠ rankIdx a + 1) l) :
    find_sequences_in_sorted_list l = 0 := by
  cases l with
  | nil => rfl
  | cons c rest =>
    by_cases hlen : (c :: rest).length < 3
    · simp only [find_sequences_in_sorted_list]
      rw [if_pos hlen]
    · simp only [find_sequences_in_sorted_list]
      rw [if_neg hlen]
      exact findSeqAux_of_chain rest c 1 0 h

/-! ## Theory: the grouping model -/

theorem mem_dedupFirst : ∀ (l seen : List String) (x : String),
    x ∈ dedupFirst seen l ↔ x ∈ l ∧ x ∉ seen
  | [], seen, x => by simp [dedupFirst]
  | k :: ks, seen, x => by
    simp only [dedupFirst]
    by_cases hk : k ∈ seen
    · rw [if_pos hk, mem_dedupFirst ks seen x]
      constructor
      · exact fun h => ⟨List.mem_cons_of_mem _ h.1, h.2⟩
      · rintro ⟨h1, h2⟩
        rcases List.mem_cons.mp h1 with rfl | h1
        · exact absurd hk h2
        · exact ⟨h1, h2⟩
    · rw [if_neg hk]
      simp only [List.mem_cons, mem_dedupFirst ks (k :: seen) x]
      constructor
      · rintro (rfl | ⟨h1, h2⟩)
        · exact ⟨Or.inl rfl, hk⟩
        · exact ⟨Or.inr h1, fun hx => h2 (Or.inr hx)⟩
      · rintro ⟨rfl | h1, h2⟩
        · exact Or.inl rfl
        · by_cases hxk : x = k
          · exact Or.inl hxk
          · exact Or.inr ⟨h1, by simp [hxk, h2]⟩

theorem nodup_dedupFirst : ∀ (l seen : List String), (dedupFirst seen l).Nodup
  | [], _ => List.nodup_nil
  | k :: ks, seen => by
    simp only [dedupFirst]
    by_cases hk : k ∈ seen
    · rw [if_pos hk]; exact nodup_dedupFirst ks seen
    · rw [if_neg hk]
      refine List.nodup_cons.mpr ⟨fun hmem => ?_, nodup_dedupFirst ks (k :: seen)⟩
      exact ((mem_dedupFirst ks (k :: seen) k).mp hmem).2 (List.mem_cons_self k seen)

theorem sum_map_ite_one : ∀ (ks : List String) (x : String), ks.Nodup →
    ((ks.map fun k => if x = k then 1 else 0).sum) = if x ∈ ks then 1 else 0
  | [], x, _ => by simp
  | k :: ks, x, h => by
    rw [List.nodup_cons] at h
    simp only [List.map_cons, List.sum_cons]
    by_cases hx : x = k
    · subst hx
      rw [if_pos rfl, if_pos (List.mem_cons_self x ks)]
      have hz : ((ks.map fun k => if x = k then 1 else 0).sum) = 0 := by
        refine List.sum_eq_zero fun y hy => ?_
        obtain ⟨k', hk', rfl⟩ := List.mem_map.mp hy
        have : x ≠ k' := fun hxk => h.1 (hxk ▸ hk')
        simp [this]
      omega
    · rw [if_neg hx, sum_map_ite_one ks x h.2]
      simp [List.mem_cons, hx]

theorem sum_map_countP (key : String → String) :
    ∀ (hand ks : List String), ks.Nodup →
    ((ks.map fun k => hand.countP fun c => key c = k).sum) =
      hand.countP fun c => decide (key c ∈ ks) := by
  intro hand
  induction hand with
  | nil => intro ks _; simp [List.countP_nil]
  | cons c hand ih =>
    intro ks hnd
    simp only [List.countP_cons]
    have hmap : (ks.map fun k => (hand.countP fun c => key c = k) +
        if decide (key c = k) = true then 1 else 0) =
        ks.map fun k => (hand.countP fun c => key c = k) + if key c = k then 1 else 0 := by
      refine List.map_congr_left fun k _ => ?_
      by_cases h : key c = k <;> simp [h]
    rw [hmap, List.sum_map_add, ih ks hnd, sum_map_ite_one ks (key c) hnd]
    by_cases h : key c ∈ ks <;> simp [h]

theorem groupBy_sum_lengths (key : String → String) (hand : List String) :
    (((groupBy key hand).map fun g => g.2.length).sum) = hand.length := by
  unfold groupBy
  rw [List.map_map]
  have hcomp : ((fun g : String × List String => g.2.length) ∘
      fun k => (k, hand.filter fun c => key c = k)) =
      fun k => hand.countP fun c => key c = k := by
    funext k
    simp [List.countP_eq_length_filter]
  rw [hcomp, sum_map_countP key hand _ (nodup_dedupFirst _ _)]
  rw [List.countP_eq_length]
  intro c hc
  simp only [decide_eq_true_eq]
  exact (mem_dedupFirst _ _ _).mpr ⟨List.mem_map_of_mem key hc, List.not_mem_nil _⟩

theorem mem_groupBy (key : String → String) (hand : List String) {g : String × List String}
    (hg : g ∈ groupBy key hand) : ∀ c ∈ g.2, c ∈ hand ∧ key c = g.1 := by
  unfold groupBy at hg
  obtain ⟨k, _, rfl⟩ := List.mem_map.mp hg
  intro c hc
  have h := List.mem_filter.mp hc
  exact ⟨h.1, by simpa using h.2⟩

theorem groupBy_keys_mem (key : String → String) (hand : List String) {g : String × List String}
    (hg : g ∈ groupBy key hand) : g.1 ∈ hand.map key := by
  unfold groupBy at hg
  obtain ⟨k, hk, rfl⟩ := List.mem_map.mp hg
  exact ((mem_dedupFirst _ _ _).mp hk).1

theorem groupBy_keys_nodup (key : String → String) (hand : List String) :
    ((groupBy key hand).map Prod.fst).Nodup := by
  unfold groupBy
  rw [List.map_map]
  have hcomp : (Prod.fst ∘ fun k => (k, hand.filter fun c => key c = k)) = id := rfl
  rw [hcomp, List.map_id]
  exact nodup_dedupFirst _ _

theorem groupBy_snd (key : String → String) (hand : List String) {g : String × List String}
    (hg : g ∈ groupBy key hand) : g.2 = hand.filter fun c => key c = g.1 := by
  unfold groupBy at hg
  obtain ⟨k, _, rfl⟩ := List.mem_map.mp hg
  rfl

theorem countP_le_one_of_pairwise_ne (key : String → String) :
    ∀ (l : List String), (l.Pairwise fun a b => key a ≠ key b) →
      ∀ r, (l.countP fun c => key c = r) ≤ 1
  | [], _, r => by simp
  | c :: l, h, r => by
    rw [List.pairwise_cons] at h
    rw [List.countP_cons]
    by_cases hc : key c = r
    · have hz : (l.countP fun c => key c = r) = 0 := by
        rw [List.countP_eq_zero]
        intro a ha
        simp only [decide_eq_true_eq]
        exact fun har => (h.1 a ha) (hc.trans har.symm)
      simp [hz, hc]
    · simp only [hc, decide_False, if_neg Bool.false_ne_true, Nat.add_zero]
      exact countP_le_one_of_pairwise_ne key l h.2 r

/-! ## Theory: scattered hands -/

/-- The number of suit groups holding at least two hand cards. -/
def suitsWithPair (hand : List String) : Nat :=
  ((groupBy suitOf hand).filter fun g => 2 ≤ g.2.length).length

/-- A hand is scattered when no two cards share a rank and no card's rank
index is the successor of a same-suit card's rank index. -/
def Scattered (hand : List String) : Prop :=
  (hand.Pairwise fun a b => rankOf a ≠ rankOf b) ∧
    ∀ a ∈ hand, ∀ b ∈ hand, suitOf a = suitOf b → rankIdx b ≠ rankIdx a + 1

instance (hand : List String) : Decidable (Scattered hand) := by
  unfold Scattered; exact inferInstance

theorem scattered_pure (hand : List String) (h : Scattered hand) :
    count_pure_sequences hand = 0 := by
  unfold count_pure_sequences
  refine List.sum_eq_zero fun x hx => ?_
  obtain ⟨g, hg, rfl⟩ := List.mem_map.mp hx
  refine find_sequences_eq_zero_of_chain _ (chain'_of_forall _ fun a ha b hb => ?_)
  rw [sortByRank, List.mem_insertionSort] at ha hb
  have ha' := mem_groupBy suitOf hand hg a ha
  have hb' := mem_groupBy suitOf hand hg b hb
  exact h.2 a ha'.1 b hb'.1 (ha'.2.trans hb'.2.symm)

theorem scattered_sets (hand : List String) (h : Scattered hand) :
    count_sets hand = 0 := by
  unfold count_sets
  rw [List.length_eq_zero, List.filter_eq_nil_iff]
  intro g hg
  simp only [decide_eq_true_eq, not_le]
  have hlen : g.2.length ≤ 1 := by
    rw [groupBy_snd rankOf hand hg, ← List.countP_eq_length_filter]
    exact countP_le_one_of_pairwise_ne rankOf hand h.1 g.1
  omega

theorem scattered_potential (hand : List String) (h : Scattered hand) :
    count_potential_sequences hand = (suitsWithPair hand : ℚ) * 0.5 := by
  unfold count_potential_sequences suitsWithPair
  have hcong : ((groupBy suitOf hand).map fun g =>
      (find_sequences_in_sorted_list (sortByRank g.2) : ℚ) +
        (if 2 ≤ g.2.length then (0.5 : ℚ) else 0)) =
      (groupBy suitOf hand).map fun g => if 2 ≤ g.2.length then (0.5 : ℚ) else 0 := by
    refine List.map_congr_left fun g hg => ?_
    have hz : find_sequences_in_sorted_list (sortByRank g.2) = 0 := by
      refine find_sequences_eq_zero_of_chain _ (chain'_of_forall _ fun a ha b hb => ?_)
      rw [sortByRank, List.mem_insertionSort] at ha hb
      have ha' := mem_groupBy suitOf hand hg a ha
      have hb' := mem_groupBy suitOf hand hg b hb
      exact h.2 a ha'.1 b hb'.1 (ha'.2.trans hb'.2.symm)
    rw [hz]
    push_cast
    ring
  rw [hcong]
  induction groupBy suitOf hand with
  | nil => simp
  | cons g gs ih =>
    simp only [List.map_cons, List.sum_cons, List.filter_cons]
    by_cases hp : 2 ≤ g.2.length
    · simp only [if_pos hp, hp, decide_True, if_true, List.length_cons, ih]
      push_cast
      ring
    · simp only [if_neg hp, hp, decide_False, Bool.false_eq_true, if_false, ih]
      ring

theorem two_mul_suitsWithPair_le (hand : List String) :
    2 * suitsWithPair hand ≤ hand.length := by
  have hsum := groupBy_sum_lengths suitOf hand
  have hfilter : (((groupBy suitOf hand).filter fun g => 2 ≤ g.2.length).map
      fun g => g.2.length).sum ≤ (((groupBy suitOf hand)).map fun g => g.2.length).sum := by
    refine List.Sublist.sum_le_sum ?_ fun a _ => Nat.zero_le a
    exact List.Sublist.map _ (List.filter_sublist _)
  have hlow : suitsWithPair hand * 2 ≤
      (((groupBy suitOf hand).filter fun g => 2 ≤ g.2.length).map fun g => g.2.length).sum := by
    have := List.card_nsmul_le_sum
      (((groupBy suitOf hand).filter fun g => 2 ≤ g.2.length).map fun g => g.2.length) 2
      (fun x hx => by
        obtain ⟨g, hg, rfl⟩ := List.mem_map.mp hx
        exact of_decide_eq_true (List.mem_filter.mp hg).2)
    simpa [suitsWithPair] using this
  omega

theorem scattered_k_pos (hand : List String)
    (hv : ∀ c ∈ hand, validate_card c = true) (hlen : hand.length = 13) :
    1 ≤ suitsWithPair hand := by
  by_contra hk
  have hall : ∀ g ∈ groupBy suitOf hand, g.2.length ≤ 1 := by
    intro g hg
    by_contra hg2
    have hmem : g ∈ (groupBy suitOf hand).filter fun g => 2 ≤ g.2.length :=
      List.mem_filter.mpr ⟨hg, by simpa using Nat.not_lt.mp fun h => hg2 (by omega)⟩
    have : 0 < suitsWithPair hand := List.length_pos.mpr (List.ne_nil_of_mem hmem)
    omega
  have hkeysnd := groupBy_keys_nodup suitOf hand
  have hsub : ((groupBy suitOf hand).map Prod.fst) ⊆ SUITS := by
    intro k hk'
    obtain ⟨g, hg, rfl⟩ := List.mem_map.mp hk'
    obtain ⟨c, hc, hkc⟩ := List.mem_map.mp (groupBy_keys_mem suitOf hand hg)
    have hvc := hv c hc
    unfold validate_card at hvc
    split at hvc
    · exact absurd hvc (by simp)
    · rw [Bool.and_eq_true] at hvc
      rw [← hkc]
      simpa using hvc.2
  have hle4 : ((groupBy suitOf hand).map Prod.fst).length ≤ 4 :=
    (hkeysnd.subperm hsub).length_le
  have hsum := groupBy_sum_lengths suitOf hand
  have hbound := List.sum_le_card_nsmul ((groupBy suitOf hand).map fun g => g.2.length) 1
    (fun x hx => by
      obtain ⟨g, hg, rfl⟩ := List.mem_map.mp hx
      exact hall g hg)
  simp only [List.length_map, smul_eq_mul, mul_one] at hbound hle4
  omega

/-- Hand strength of a scattered hand: `0.15` per suit holding at least
two cards (the joker-potential bonus is the only nonzero term). -/
theorem scattered_eval (hand : List String) (joker : String) (h : Scattered hand)
    (hne : hand ≠ []) (hj : joker ≠ "") (hlen : hand.length ≤ 13) :
    evaluate_hand_strength hand joker = 3 * (suitsWithPair hand : ℚ) / 20 := by
  unfold evaluate_hand_strength
  rw [if_neg (by simp [hne, hj])]
  rw [scattered_pure hand h, scattered_sets hand h, scattered_potential hand h]
  have hk6 : suitsWithPair hand ≤ 6 := by
    have := two_mul_suitsWithPair_le hand
    omega
  have hle1 : (suitsWithPair hand : ℚ) * 0.5 * 0.3 ≤ 1 := by
    have : (suitsWithPair hand : ℚ) ≤ 6 := by exact_mod_cast hk6
    nlinarith
  rw [min_eq_left (by push_cast; nlinarith)]
  push_cast
  ring

/-! ## Claims -/

/-- C9: `sort_cards` is idempotent — for every list of card tokens and
every joker, sorting a sorted hand returns it unchanged (an
already-sorted hand is a fixed point). -/
theorem C9_sort_cards_idempotent (cards : List String) (joker : Option String) :
    sort_cards (sort_cards cards joker) joker = sort_cards cards joker := by
  haveI : IsTotal String (sortRel joker) := ⟨sortRel_total joker⟩
  haveI : IsTrans String (sortRel joker) := ⟨fun _ _ _ => sortRel_trans joker⟩
  exact (List.sorted_insertionSort (sortRel joker) cards).insertionSort_eq

/-- C8: `suggest_pick_source` with an absent open card returns
"Closed Deck" for every hand, joker, discard pile and opponent history,
and returns the `RummyAI` state unchanged — no counter and no preference
flag is touched, because the model is refreshed only in the branch where
an open card is present. -/
theorem C8_pick_source_absent_frame (ai : RummyAI) (hand : List String) (joker : String)
    (discard_pile opponent_picks opponent_discards : List String) :
    suggest_pick_source ai hand joker none discard_pile opponent_picks opponent_discards =
      some ("Closed Deck", ai) := rfl

/-- C5, code evaluated at the failing input: `evaluate_hand_strength`
does return 0.0 for the empty hand and for a missing joker, but
`suggest_discard` on the empty hand hits `card_scores[0]` on an empty
list and raises `IndexError` (modelled `none`) instead of returning the
neutral result the claim promises. -/
theorem C5_empty_hand_behavior :
    evaluate_hand_strength [] "5H" = 0 ∧
    evaluate_hand_strength ["2H"] "" = 0 ∧
    suggest_discard [] "5H" none [] [] [] = none :=
  ⟨rfl, rfl, rfl⟩

/-- C4, code evaluated at the failing inputs: an open card of rank K
drives `RANKS[rank_idx+2]` out of range (`IndexError`, modelled `none`),
so `suggest_pick_source` does not return a result; and for an open 3 the
Python negative index `RANKS[rank_idx-2] = RANKS[-1] = "A"` makes the
completion test accept A-2-3, a wraparound between A and 2. -/
theorem C4_pick_source_rank_bounds :
    does_card_complete_group ["4H"] "KH" "2S" = none ∧
    suggest_pick_source initAI ["4H"] "2S" (some "KH") [] [] [] = none ∧
    does_card_complete_group ["AH", "2H"] "3H" "2S" = some true ∧
    suggest_pick_source initAI ["AH", "2H"] "2S" (some "3H") [] [] [] =
      some ("Open Deck", initAI) :=
  ⟨by decide, by decide, by decide, by decide⟩

/-- C6: for every hand, `_count_pure_sequences` equals the sum, over the
maximal same-suit consecutive-rank runs of each rank-sorted suit group,
of `max (runLength - 2) 0` (`Nat` subtraction); and a single run of
length 5 counts 3 sequences — the overlapping-count policy. -/
theorem C6_overlapping_run_count :
    (∀ hand : List String, count_pure_sequences hand =
      ((groupBy suitOf hand).map fun g => runSum (sortByRank g.2)).sum) ∧
    count_pure_sequences ["2H", "3H", "4H", "5H", "6H"] = 3 := by
  constructor
  · intro hand
    unfold count_pure_sequences
    exact congrArg List.sum (List.map_congr_left fun g _ => find_sequences_eq_runSum _)
  · decide

/-- C7: for every hand with at most one card and every joker,
`evaluate_hand_strength` returns exactly 0. -/
theorem C7_small_hand_strength_zero (hand : List String) (joker : String)
    (h : hand.length ≤ 1) : evaluate_hand_strength hand joker = 0 := by
  match hand with
  | [] => simp [evaluate_hand_strength]
  | [c] =>
    by_cases hj : joker = ""
    · simp [evaluate_hand_strength, hj]
    · unfold evaluate_hand_strength
      rw [if_neg (by simp [hj])]
      have hg : groupBy suitOf [c] = [(suitOf c, [c])] := by
        simp [groupBy, dedupFirst, List.filter]
      have hgr : groupBy rankOf [c] = [(rankOf c, [c])] := by
        simp [groupBy, dedupFirst, List.filter]
      unfold count_pure_sequences count_potential_sequences count_sets
      rw [hg, hgr]
      norm_num [sortByRank, find_sequences_in_sorted_list]

/-- Witness for C7 at a concrete one-card hand. -/
theorem C7_small_hand_strength_zero_witness :
    (["2H"] : List String).length ≤ 1 ∧ evaluate_hand_strength ["2H"] "5D" = 0 :=
  ⟨by decide, C7_small_hand_strength_zero ["2H"] "5D" (by decide)⟩

/-! ## Theory: keys of the pick counter -/

theorem bump_guard (m : List (String × Nat)) (c : String) :
    (m.any fun p => p.1 = c) = true ↔ c ∈ m.map Prod.fst := by
  rw [List.any_eq_true]
  constructor
  · rintro ⟨p, hp, hpc⟩
    exact List.mem_map.mpr ⟨p, hp, by simpa using hpc⟩
  · intro h
    obtain ⟨p, hp, rfl⟩ := List.mem_map.mp h
    exact ⟨p, hp, by simp⟩

theorem bump_keys (m : List (String × Nat)) (c : String) :
    (bump m c).map Prod.fst =
      if c ∈ m.map Prod.fst then m.map Prod.fst else m.map Prod.fst ++ [c] := by
  unfold bump
  by_cases h : c ∈ m.map Prod.fst
  · rw [if_pos ((bump_guard m c).mpr h), if_pos h, List.map_map]
    refine List.map_congr_left fun p _ => ?_
    by_cases hp : p.1 = c <;> simp [hp]
  · rw [if_neg fun ha => h ((bump_guard m c).mp ha), if_neg h]
    simp

theorem dedupFirst_congr : ∀ (l seen₁ seen₂ : List String),
    (∀ x, x ∈ seen₁ ↔ x ∈ seen₂) → dedupFirst seen₁ l = dedupFirst seen₂ l
  | [], _, _, _ => rfl
  | k :: ks, s₁, s₂, h => by
    simp only [dedupFirst]
    by_cases hk : k ∈ s₁
    · rw [if_pos hk, if_pos ((h k).mp hk)]
      exact dedupFirst_congr ks s₁ s₂ h
    · rw [if_neg hk, if_neg fun hx => hk ((h k).mpr hx)]
      rw [dedupFirst_congr ks (k :: s₁) (k :: s₂) fun x => by simp [h x]]

theorem foldl_bump_keys : ∀ (picks : List String) (m : List (String × Nat)),
    (picks.foldl bump m).map Prod.fst =
      m.map Prod.fst ++ dedupFirst (m.map Prod.fst) picks
  | [], m => by simp [dedupFirst]
  | c :: picks, m => by
    simp only [List.foldl_cons, dedupFirst]
    by_cases h : c ∈ m.map Prod.fst
    · rw [if_pos h, foldl_bump_keys picks (bump m c), bump_keys, if_pos h]
    · rw [if_neg h, foldl_bump_keys picks (bump m c), bump_keys, if_neg h]
      rw [dedupFirst_congr picks (m.map Prod.fst ++ [c]) (c :: m.map Prod.fst)
        fun x => by simp [or_comm]]
      simp

/-- C2 counterexample: the claim says that after opponent picks
["5H","6H","5H"] the repeated pick is counted twice, so
`isLikelyWanted("5H")` is true; the code iterates the `open_picks` dict,
i.e. its keys, counts the distinct card "5H" once (and the suit H twice),
and returns false. -/
theorem C2_counterexample :
    is_card_likely_useful_to_opponent
      (update_opponent_behavior initAI ["5H", "6H", "5H"] []) "5H" = false := by
  decide

/-- C2 amended: `isLikelyWanted` counts each *distinct* picked card once
(the comprehension iterates dict keys, ignoring the stored
multiplicities): starting from a fresh model it returns true exactly when
more than 1 distinct picked card shares the rank or more than 2 share the
suit.  In Scenario D both `isLikelyWanted("5H")` (distinct rank-5 picks
= 1) and `isLikelyWanted("9S")` are therefore false. -/
theorem C2_likely_wanted_distinct :
    (∀ (picks : List String) (card : String),
      is_card_likely_useful_to_opponent (update_opponent_behavior initAI picks []) card =
        (decide (1 < (dedupFirst [] picks).countP fun c => rankOf c == rankOf card) ||
         decide (2 < (dedupFirst [] picks).countP fun c => suitOf c == suitOf card))) ∧
    is_card_likely_useful_to_opponent
      (update_opponent_behavior initAI ["5H", "6H", "5H"] []) "5H" = false ∧
    is_card_likely_useful_to_opponent
      (update_opponent_behavior initAI ["5H", "6H", "5H"] []) "9S" = false := by
  refine ⟨?_, by decide, by decide⟩
  intro picks card
  have hk : (update_opponent_behavior initAI picks []).open_picks.map Prod.fst =
      dedupFirst [] picks := by
    show ((picks.foldl bump initAI.open_picks)).map Prod.fst = _
    rw [foldl_bump_keys]
    rfl
  have h1 : ((update_opponent_behavior initAI picks []).open_picks.countP
      fun p => rankOf p.1 == rankOf card) =
      (dedupFirst [] picks).countP fun c => rankOf c == rankOf card := by
    rw [← hk, List.countP_map]
    rfl
  have h2 : ((update_opponent_behavior initAI picks []).open_picks.countP
      fun p => suitOf p.1 == suitOf card) =
      (dedupFirst [] picks).countP fun c => suitOf c == suitOf card := by
    rw [← hk, List.countP_map]
    rfl
  simp only [is_card_likely_useful_to_opponent, h1, h2]

/-- The 13-card fully scattered hand used against Scenario B: no two
cards share a rank and no two same-suit cards have adjacent ranks. -/
def scatteredHand : List String :=
  ["2H", "4H", "6H", "8H", "10H", "QH", "AH", "3S", "5S", "7S", "9S", "JS", "KS"]

/-- C3 counterexample: a fully scattered, valid 13-card hand on which
`evaluate_hand_strength` returns 3/10 (two suits carry the flat 0.5
joker-potential bonus each, weighted by 0.3), not the 0.0 the claim
states. -/
theorem C3_counterexample :
    (∀ c ∈ scatteredHand, validate_card c = true) ∧ Scattered scatteredHand ∧
    scatteredHand.length = 13 ∧ evaluate_hand_strength scatteredHand "5D" ≠ 0 := by
  refine ⟨by decide, by decide, by decide, ?_⟩
  rw [scattered_eval scatteredHand "5D" (by decide) (by decide) (by decide) (by decide)]
  have hsp : suitsWithPair scatteredHand = 2 := by decide
  rw [hsp]
  norm_num

/-- C3 amended: for every valid, fully scattered 13-card hand (with a
nonempty joker), `evaluate_hand_strength` returns `0.15 · k` where
`k ≥ 1` is the number of suits holding at least two hand cards — so the
strength is never 0.0 — and `suggest_initial_action` returns "Drop"
exactly when at most three suits hold at least two cards. -/
theorem C3_scattered_strength (hand : List String) (joker : String)
    (hv : ∀ c ∈ hand, validate_card c = true) (hs : Scattered hand)
    (hlen : hand.length = 13) (hj : joker ≠ "") :
    evaluate_hand_strength hand joker = 3 * (suitsWithPair hand : ℚ) / 20 ∧
    1 ≤ suitsWithPair hand ∧
    (suggest_initial_action hand joker = "Drop" ↔ suitsWithPair hand ≤ 3) := by
  have hne : hand ≠ [] := by
    intro h
    rw [h] at hlen
    simp at hlen
  have heval := scattered_eval hand joker hs hne hj (le_of_eq hlen)
  refine ⟨heval, scattered_k_pos hand hv hlen, ?_⟩
  unfold suggest_initial_action
  rw [heval]
  have hiff : (0.5 : ℚ) ≤ 3 * (suitsWithPair hand : ℚ) / 20 ↔ 4 ≤ suitsWithPair hand := by
    rw [le_div_iff₀ (by norm_num : (0:ℚ) < 20)]
    constructor
    · intro h
      by_contra hlt
      push_neg at hlt
      have h3 : (suitsWithPair hand : ℚ) ≤ 3 := by exact_mod_cast Nat.lt_succ_iff.mp hlt
      nlinarith
    · intro h
      have h4 : (4 : ℚ) ≤ (suitsWithPair hand : ℚ) := by exact_mod_cast h
      nlinarith
  by_cases hc : (0.5 : ℚ) ≤ 3 * (suitsWithPair hand : ℚ) / 20
  · rw [if_pos hc]
    have h4 := hiff.mp hc
    constructor
    · intro hpd
      exact absurd hpd (by decide)
    · intro h3
      omega
  · rw [if_neg hc]
    have h4 : ¬ 4 ≤ suitsWithPair hand := fun h => hc (hiff.mpr h)
    exact ⟨fun _ => by omega, fun _ => rfl⟩

/-- Witness for C3 (amended) at the concrete scattered hand. -/
theorem C3_scattered_strength_witness :
    (∀ c ∈ scatteredHand, validate_card c = true) ∧ Scattered scatteredHand ∧
    scatteredHand.length = 13 ∧ ("5D" : String) ≠ "" ∧
    (evaluate_hand_strength scatteredHand "5D" = 3 * (suitsWithPair scatteredHand : ℚ) / 20 ∧
     1 ≤ suitsWithPair scatteredHand ∧
     (suggest_initial_action scatteredHand "5D" = "Drop" ↔ suitsWithPair scatteredHand ≤ 3)) :=
  ⟨by decide, by decide, by decide, by decide,
    C3_scattered_strength scatteredHand "5D" (by decide) (by decide) (by decide) (by decide)⟩

/-- C10: noninterference of opponent discards — two runs of
`suggest_pick_source`, `suggest_discard` or `suggest_trap_card` from
equal `RummyAI` states whose arguments differ only in the
`opponent_discards` list return identical recommendations: the discard
history feeds a counter that no advisory decision ever reads. -/
theorem C10_opponent_discards_noninterference (ai : RummyAI) (hand : List String)
    (joker : String) (open_card picked_card : Option String)
    (discard_pile opponent_picks d₁ d₂ : List String) :
    ((suggest_pick_source ai hand joker open_card discard_pile opponent_picks d₁).map
        Prod.fst =
      (suggest_pick_source ai hand joker open_card discard_pile opponent_picks d₂).map
        Prod.fst) ∧
    suggest_discard hand joker picked_card discard_pile opponent_picks d₁ =
      suggest_discard hand joker picked_card discard_pile opponent_picks d₂ ∧
    (suggest_trap_card ai hand joker opponent_picks d₁).1 =
      (suggest_trap_card ai hand joker opponent_picks d₂).1 := by
  refine ⟨?_, rfl, rfl⟩
  unfold suggest_pick_source
  by_cases hoc : open_card.getD "" = ""
  · simp only [if_pos hoc]
  · simp only [if_neg hoc]
    cases hdc : does_card_complete_group hand (open_card.getD "") joker with
    | none => rfl
    | some b =>
      cases b with
      | true => rfl
      | false =>
        have hlik : is_card_likely_useful_to_opponent
            (update_opponent_behavior ai opponent_picks d₁) (open_card.getD "") =
            is_card_likely_useful_to_opponent
            (update_opponent_behavior ai opponent_picks d₂) (open_card.getD "") := rfl
        simp only [Option.some_bind, Bool.false_eq_true, if_false]
        by_cases hl : is_card_likely_useful_to_opponent
            (update_opponent_behavior ai opponent_picks d₁) (open_card.getD "") = true
        · rw [if_neg (by simp [hl]), if_neg (by simp [hlik ▸ hl])]
          rfl
        · rw [if_pos hl, if_pos (hlik ▸ hl)]
          rfl

/-! ## Theory: the discard advisor -/

theorem scoreLe_total (a b : String × WithTop ℚ) : scoreLe a b ∨ scoreLe b a :=
  le_total a.2 b.2

theorem scoreLe_trans {a b c : String × WithTop ℚ} (h₁ : scoreLe a b) (h₂ : scoreLe b c) :
    scoreLe a c := le_trans h₁ h₂

/-- C1: whenever some hand card lies outside the protected set computed
by the meld detector, `suggest_discard` returns a hand card outside the
protected set; and when every hand card is protected (all scores `+∞`)
the stable sort leaves the list unchanged and the first hand card — the
protected card with the lowest index — is returned (`head?`, which also
covers the vacuous empty hand). -/
theorem C1_discard_avoids_protected (hand : List String) (joker : String)
    (picked_card : Option String) (discard_pile opponent_picks opponent_discards : List String) :
    ((∃ c ∈ hand, c ∉ identify_protected_cards hand joker) →
      ∃ c, suggest_discard hand joker picked_card discard_pile opponent_picks
          opponent_discards = some c ∧
        c ∈ hand ∧ c ∉ identify_protected_cards hand joker) ∧
    ((∀ c ∈ hand, c ∈ identify_protected_cards hand joker) →
      suggest_discard hand joker picked_card discard_pile opponent_picks
          opponent_discards = hand.head?) := by
  haveI : IsTotal (String × WithTop ℚ) scoreLe := ⟨scoreLe_total⟩
  haveI : IsTrans (String × WithTop ℚ) scoreLe := ⟨fun _ _ _ => scoreLe_trans⟩
  let score : String → String × WithTop ℚ := fun card =>
    if card ∈ identify_protected_cards hand joker then (card, (⊤ : WithTop ℚ))
    else (card, ((calculate_card_usefulness hand card joker -
            calculate_discard_danger card opponent_picks opponent_discards : ℚ) : WithTop ℚ))
  have hsug : suggest_discard hand joker picked_card discard_pile opponent_picks
      opponent_discards = ((hand.map score).insertionSort scoreLe).head?.map Prod.fst := rfl
  constructor
  · rintro ⟨c, hc, hcp⟩
    have hsorted := List.sorted_insertionSort scoreLe (hand.map score)
    cases hhead : (hand.map score).insertionSort scoreLe with
    | nil =>
      exfalso
      have hlen := (List.perm_insertionSort scoreLe (hand.map score)).length_eq
      rw [hhead] at hlen
      simp only [List.length_nil, List.length_map] at hlen
      rw [List.length_eq_zero.mp hlen.symm] at hc
      exact List.not_mem_nil c hc
    | cons hd tl =>
      have hd_mem : hd ∈ hand.map score := by
        rw [← List.mem_insertionSort scoreLe, hhead]
        exact List.mem_cons_self hd tl
      obtain ⟨a, ha, hrep⟩ := List.mem_map.mp hd_mem
      have hfin : hd.2 ≠ ⊤ := by
        have hcmem : score c ∈ (hand.map score).insertionSort scoreLe :=
          (List.mem_insertionSort scoreLe).mpr (List.mem_map_of_mem score hc)
        have hcval : score c = (c, ((calculate_card_usefulness hand c joker -
            calculate_discard_danger c opponent_picks opponent_discards : ℚ) : WithTop ℚ)) := by
          simp only [score, if_neg hcp]
        rw [hhead] at hcmem
        rcases List.mem_cons.mp hcmem with heq | htl
        · rw [← heq, hcval]
          exact WithTop.coe_ne_top
        · have hle : scoreLe hd (score c) := by
            rw [hhead] at hsorted
            exact List.rel_of_sorted_cons hsorted _ htl
          intro htop
          rw [hcval] at hle
          unfold scoreLe at hle
          rw [htop] at hle
          exact WithTop.coe_ne_top (top_le_iff.mp hle)
      have hanp : a ∉ identify_protected_cards hand joker := by
        intro hap
        apply hfin
        rw [← hrep]
        simp only [score, if_pos hap]
      have hfst : hd.1 = a := by
        rw [← hrep]
        simp only [score]
        by_cases h : a ∈ identify_protected_cards hand joker <;> simp [h]
      refine ⟨hd.1, ?_, ?_, ?_⟩
      · rw [hsug, hhead]
        rfl
      · rw [hfst]
        exact ha
      · rw [hfst]
        exact hanp
  · intro hall
    have hmap : hand.map score = hand.map fun card => (card, (⊤ : WithTop ℚ)) :=
      List.map_congr_left fun a ha => by simp only [score, if_pos (hall a ha)]
    have hpair : List.Pairwise scoreLe (hand.map fun card => (card, (⊤ : WithTop ℚ))) := by
      rw [List.pairwise_map]
      exact List.pairwise_iff_forall_sublist.mpr fun _ => le_refl _
    rw [hsug, hmap, List.Sorted.insertionSort_eq hpair, List.head?_map, Option.map_map]
    cases hand <;> rfl

/-- Witness for C1: a hand with one unprotected card (the run 2H-3H-4H is
protected, 9S is not) yields a non-protected discard, and a fully
protected hand yields its first card. -/
theorem C1_discard_avoids_protected_witness :
    (∃ c ∈ ["2H", "3H", "4H", "9S"],
      c ∉ identify_protected_cards ["2H", "3H", "4H", "9S"] "5D") ∧
    (∃ c, suggest_discard ["2H", "3H", "4H", "9S"] "5D" none [] [] [] = some c ∧
      c ∈ ["2H", "3H", "4H", "9S"] ∧
      c ∉ identify_protected_cards ["2H", "3H", "4H", "9S"] "5D") ∧
    (∀ c ∈ ["2H", "3H", "4H"], c ∈ identify_protected_cards ["2H", "3H", "4H"] "5D") ∧
    suggest_discard ["2H", "3H", "4H"] "5D" none [] [] [] =
      (["2H", "3H", "4H"] : List String).head? :=
  ⟨by decide,
    (C1_discard_avoids_protected ["2H", "3H", "4H", "9S"] "5D" none [] [] []).1 (by decide),
    by decide,
    (C1_discard_avoids_protected ["2H", "3H", "4H"] "5D" none [] [] []).2 (by decide)⟩

end Rumy
